import Mathlib

/-!
Verification of the metrologist CV-report module (`metroloj/cv.py`).

This file gives a shallow embedding of the coefficient-of-variation (CV)
report pipeline of `src/metrologist/metroloj/cv.py` and proves/refutes the
specification claims about it.

Conventions of the embedding:
* An image is a list of rows of natural-number pixel intensities, matching
  the integer-typed (`uint8`/`uint16`) tiff data the module processes.
* Stateful numpy code (`get_segmented_image` zeroes pixels of its argument
  in place; `get_cv_table_global` therefore overwrites the caller's stack)
  is modelled by explicit state passing: functions return the new array.
* Floating-point statistics are modelled over `ℚ`/`ℝ` (exact arithmetic);
  the non-finite float results that numpy produces on empty pixel sets
  (`np.mean([]) = nan`, `np.std([]) = nan`) are modelled as `none` of an
  `Option` type.
* Library calls from skimage/scipy are embedded by their semantics:
  `threshold_otsu` for integer images (one histogram bin per integer value
  between min and max, first argmax of between-class variance, constant
  images short-circuit to their single value), `closing` with a 3×3 square
  (grey dilation then erosion, `reflect` boundary mode, which for a
  radius-1 footprint is exactly "clip the neighbourhood to the image"),
  and `clear_border` (remove every 8-connected component meeting the
  border band).
-/

namespace Metrologist

set_option maxRecDepth 40000

/-- An image: a list of rows of pixel intensities. -/
abbrev Image := List (List ℕ)

/-- Row-major list of all pixels (numpy ravel order). -/
def pixels (img : Image) : List ℕ := img.flatten

/-- Number of rows (`img.shape[0]`). -/
def height (img : Image) : ℕ := img.length

/-- Number of columns (`img.shape[1]`). -/
def width (img : Image) : ℕ := (img.headD []).length

/-- The image is a nonempty rectangular array, as numpy guarantees for the
2D arrays handed to the module. -/
def Rectangular (img : Image) : Prop :=
  img ≠ [] ∧ 0 < width img ∧ ∀ r ∈ img, r.length = width img

instance : DecidablePred Rectangular := fun img => by
  unfold Rectangular; infer_instance

/-- Pixel access `img[i, j]`, defaulting to 0 out of bounds. -/
def pixel (img : Image) (i j : ℕ) : ℕ := (img.getD i []).getD j 0

/-- Minimum (`np.min`) of the pixel values of a nonempty array (0 on empty, unused). -/
def natMin : List ℕ → ℕ
  | [] => 0
  | x :: xs => xs.foldl min x

/-- Maximum (`np.max`) of the pixel values of a nonempty array (0 on empty, unused). -/
def natMax : List ℕ → ℕ
  | [] => 0
  | x :: xs => xs.foldl max x

/-- Histogram counts of `px` over `n` consecutive integer bins starting at
`lo`, as skimage's `_bincount_histogram` computes for integer images. -/
def binCounts (px : List ℕ) (lo n : ℕ) : List ℕ :=
  (List.range n).map fun k => px.count (lo + k)

/-- skimage `threshold_otsu` specialised to integer images: if the image is
constant it returns that single value; otherwise it histograms the image
with one bin per integer value from min to max and returns the bin value
whose split maximises the between-class variance
`w1 * w2 * (mean1 - mean2)^2`, taking the first maximum (`np.argmax`).
With `mean1 = s1/w1` and `mean2 = s2/w2` the variance of a split is exactly
the fraction `(s1*w2 - s2*w1)^2 / (w1*w2)`; the embedding compares these
exact fractions by cross-multiplication (every `w1`/`w2` in range is
positive since the extreme bins are populated), which keeps the whole
definition inside kernel-computable integer arithmetic. -/
def threshold_otsu (img : Image) : ℕ :=
  let px := pixels img
  let first := px.headD 0
  if px.all fun v => v = first then first
  else
    let mn := natMin px
    let mx := natMax px
    let nbins := mx - mn + 1
    let counts : List ℕ := binCounts px mn nbins
    let weighted : List ℕ := (List.range nbins).map fun k => px.count (mn + k) * (mn + k)
    let w1 : ℕ → ℕ := fun i => (counts.take (i + 1)).sum
    let w2 : ℕ → ℕ := fun i => (counts.drop i).sum
    let s1 : ℕ → ℕ := fun i => (weighted.take (i + 1)).sum
    let s2 : ℕ → ℕ := fun i => (weighted.drop i).sum
    let varNum : ℕ → ℤ :=
      fun i => ((s1 i : ℤ) * w2 (i + 1) - (s2 (i + 1) : ℤ) * w1 i) *
               ((s1 i : ℤ) * w2 (i + 1) - (s2 (i + 1) : ℤ) * w1 i)
    let varDen : ℕ → ℤ := fun i => (w1 i : ℤ) * w2 (i + 1)
    let best := (List.range (nbins - 1)).foldl
      (fun acc i => if varNum i * varDen acc > varNum acc * varDen i then i else acc) 0
    mn + best

/-! ## Masks and morphology -/

/-- A boolean mask with the same layout as an image. -/
abbrev Mask := List (List Bool)

/-- Mask access at natural coordinates, `false` out of bounds. -/
def maskGetN (m : Mask) (i j : ℕ) : Bool := (m.getD i []).getD j false

/-- Mask access at integer coordinates, `false` out of bounds. -/
def maskGet (m : Mask) (i j : ℤ) : Bool :=
  decide (0 ≤ i) && decide (0 ≤ j) && maskGetN m i.toNat j.toNat

/-- Build an `h × w` mask from a predicate. -/
def mkMask (h w : ℕ) (f : ℕ → ℕ → Bool) : Mask :=
  (List.range h).map fun i => (List.range w).map fun j => f i j

/-- The nine offsets of the 3×3 square structuring element. -/
def offsets9 : List (ℤ × ℤ) :=
  [(-1, -1), (-1, 0), (-1, 1), (0, -1), (0, 0), (0, 1), (1, -1), (1, 0), (1, 1)]

/-- The eight offsets of 8-connectivity (full connectivity for 2D labels). -/
def adj8 : List (ℤ × ℤ) :=
  [(-1, -1), (-1, 0), (-1, 1), (0, -1), (0, 1), (1, -1), (1, 0), (1, 1)]

def inBounds (h w : ℕ) (i j : ℤ) : Bool :=
  decide (0 ≤ i) && decide (i < (h : ℤ)) && decide (0 ≤ j) && decide (j < (w : ℤ))

/-- Grey dilation with the 3×3 square; out-of-image neighbours are absent
(reflect boundary ≡ clipped neighbourhood for a radius-1 footprint). -/
def dilate (h w : ℕ) (m : Mask) : Mask :=
  mkMask h w fun i j =>
    offsets9.any fun d => maskGet m ((i : ℤ) + d.1) ((j : ℤ) + d.2)

/-- Grey erosion with the 3×3 square; out-of-image neighbours are ignored
(reflect boundary ≡ clipped neighbourhood for a radius-1 footprint). -/
def erode (h w : ℕ) (m : Mask) : Mask :=
  mkMask h w fun i j =>
    offsets9.all fun d =>
      !inBounds h w ((i : ℤ) + d.1) ((j : ℤ) + d.2) ||
        maskGet m ((i : ℤ) + d.1) ((j : ℤ) + d.2)

/-- Morphological `closing(bw, square(3))`: dilation followed by erosion. -/
def closing3 (h w : ℕ) (m : Mask) : Mask := erode h w (dilate h w m)

/-! `clear_border` removes every 8-connected component of the mask that meets
a border band. Connectivity is computed by saturating a one-step spread from
the band; `h*w` iterations certainly reach the fixed point. -/

/-- One spreading step: a mask pixel becomes reached if it was reached or has
a reached 8-neighbour. -/
def stepReach (h w : ℕ) (m r : Mask) : Mask :=
  mkMask h w fun i j =>
    maskGetN m i j &&
      (maskGetN r i j || adj8.any fun d => maskGet r ((i : ℤ) + d.1) ((j : ℤ) + d.2))

/-- The mask pixels lying in the band. -/
def bandSeed (h w : ℕ) (band : ℕ → ℕ → Bool) (m : Mask) : Mask :=
  mkMask h w fun i j => maskGetN m i j && band i j

/-- Iterate `f` at most `n` times, stopping early once a fixed point is
reached; equal to `f^[n]` (`iterStable_eq`), but cheap to evaluate. -/
def iterStable (f : Mask → Mask) : ℕ → Mask → Mask
  | 0, r => r
  | n + 1, r => if f r = r then r else iterStable f n (f r)

/-- All mask pixels 8-connected (within the mask) to a band pixel. -/
def bandReach (h w : ℕ) (band : ℕ → ℕ → Bool) (m : Mask) : Mask :=
  iterStable (stepReach h w m) (h * w) (bandSeed h w band m)

/-- Remove every component connected to the band. -/
def clearBorderW (h w : ℕ) (band : ℕ → ℕ → Bool) (m : Mask) : Mask :=
  mkMask h w fun i j => maskGetN m i j && !maskGetN (bandReach h w band m) i j

/-- The width-1 border band used by `clear_border` with `buffer_size=0`:
first/last row and first/last column. -/
def inBand (h w i j : ℕ) : Bool :=
  (i == 0) || (i == h - 1) || (j == 0) || (j == w - 1)

/-- skimage `clear_border(bw)`: drop every 8-connected component that
touches the image border. -/
def clear_border (h w : ℕ) (m : Mask) : Mask :=
  clearBorderW h w (fun i j => inBand h w i j) m

/-! ## The Segmenter -/

/-- The pixels strictly above the Otsu threshold (`img > thresh`). -/
def aboveThresh (img : Image) : Mask :=
  mkMask (height img) (width img) fun i j =>
    decide (pixel img i j > threshold_otsu img)

/-- The surviving mask of `get_segmented_image`: strictly-above-threshold
pixels, morphologically closed with the 3×3 square, with border-touching
components removed. -/
def segMask (img : Image) : Mask :=
  clear_border (height img) (width img)
    (closing3 (height img) (width img) (aboveThresh img))

/-- The Segmenter `get_segmented_image(img)`: the double loop writes 0 to every pixel not
in the surviving mask and keeps surviving pixels unchanged.  The numpy code
mutates `img` in place and returns it; the embedding returns the new array
(callers that observe the mutation thread this value as the new state). -/
def get_segmented_image (img : Image) : Image :=
  (List.range (height img)).map fun i =>
    (List.range (width img)).map fun j =>
      if maskGetN (segMask img) i j then pixel img i j else 0

/-! ## The ROI Extractor -/

/-- ROI bounds of `get_roi_default` for one dimension pair `(xdim, ydim)`:
`h = int(xdim*0.4)`, `w = int(ydim*0.4)`, `startx = xdim//2 - h//2`,
`endx = xdim//2 + h//2`, and analogously for columns.  `int(x*0.4)` on a
float64 equals `2*x/5` in integer arithmetic throughout the representable
range of image sizes, so the embedding uses the exact integer form.
Returns `(startx, endx, starty, endy)`. -/
def roiCoords (xdim ydim : ℕ) : ℕ × ℕ × ℕ × ℕ :=
  let h := 2 * xdim / 5
  let w := 2 * ydim / 5
  (xdim / 2 - h / 2, xdim / 2 + h / 2, ydim / 2 - w / 2, ydim / 2 + w / 2)

/-- The central crop `img[startx:endx, starty:endy]` taken by
`get_roi_default` for every image of the stack. -/
def roiCrop (img : Image) : Image :=
  let c := roiCoords (height img) (width img)
  ((img.drop c.1).take (c.2.1 - c.1)).map fun r =>
    (r.drop c.2.2.1).take (c.2.2.2 - c.2.2.1)

/-! ## The Statistics Aggregator (`get_cv_table_global`)

The statistics are float computations; they are modelled over `ℝ` in exact
arithmetic.  numpy produces `nan` (without raising) on empty pixel sets;
every non-finite float result is modelled as `none`. -/

/-- The vector `img_temp[img_temp != 0]`: row-major list of the non-zero pixels of
the segmented image. -/
def ballIntensity (img : Image) : List ℕ :=
  (pixels (get_segmented_image img)).filter fun v => v ≠ 0

/-- Mean (`np.mean`) of a vector of pixels (`nan`, i.e. `none`, on empty input). -/
noncomputable def npMean (l : List ℕ) : Option ℝ :=
  if l = [] then none else some ((l.map fun v => (v : ℝ)).sum / l.length)

/-- Population standard deviation `np.std` (`nan`, i.e. `none`, on empty
input): the square root of the mean squared deviation. -/
noncomputable def npStd (l : List ℕ) : Option ℝ :=
  if l = [] then none
  else
    some (Real.sqrt
      ((l.map fun v => ((v : ℝ) - (l.map fun u => (u : ℝ)).sum / l.length) ^ 2).sum /
        l.length))

/-- The ratio `cv = std/mean` (`nan`, i.e. `none`, when the pixel set is empty; the
mean of a nonempty set of non-zero naturals is positive, so the quotient is
finite). -/
noncomputable def cvOpt (l : List ℕ) : Option ℝ :=
  if l = [] then none
  else
    some (Real.sqrt
      ((l.map fun v => ((v : ℝ) - (l.map fun u => (u : ℝ)).sum / l.length) ^ 2).sum /
          l.length) /
      ((l.map fun v => (v : ℝ)).sum / l.length))

/-- One comparison step of Python's `min`, with the float semantics on
`Option ℝ`: a comparison involving `nan` (`none`) is false, so the running
minimum is replaced only when the candidate is a real number strictly below
a real running minimum. -/
noncomputable def pyMinStep (acc y : Option ℝ) : Option ℝ :=
  match acc, y with
  | some a, some b => if b < a then some b else some a
  | _, _ => acc

/-- Python's `min` over the float `cv_list`, modelled on `Option ℝ`.
(`min([])` raises in Python; the embedding returns `none` there, a case no
claim relies on.) -/
noncomputable def pyMin (l : List (Option ℝ)) : Option ℝ :=
  match l with
  | [] => none
  | x :: xs => xs.foldl pyMinStep x

/-- Elementwise `np.divide` entry: `none` (non-finite float: `nan` operand,
or division by zero) propagates. -/
noncomputable def divOpt (a b : Option ℝ) : Option ℝ :=
  match a, b with
  | some x, some y => if y = 0 then none else some (x / y)
  | _, _ => none

/-- The CV table: the five columns of the returned dict, in source order. -/
structure CvTable where
  sd : List (Option ℝ)
  average : List (Option ℝ)
  nb_pixels : List ℕ
  cv : List (Option ℝ)
  cv_relative_to_min : List (Option ℝ)

/-- One iteration of the loop of `get_cv_table_global`: segment
`tiff_data[i]` (which overwrites `tiff_data[i]` in place — modelled by
`List.set`) and append its non-zero pixel vector to the accumulator. -/
def cvStep (acc : List Image × List (List ℕ)) (i : ℕ) : List Image × List (List ℕ) :=
  let seg := get_segmented_image (acc.1.getD i [])
  (acc.1.set i seg, acc.2 ++ [(pixels seg).filter fun v => v ≠ 0])

/-- The loop of `get_cv_table_global` over `range(len(tiff_data))`: returns
the mutated stack and the per-image non-zero pixel vectors. -/
def cvRun (stack : List Image) : List Image × List (List ℕ) :=
  (List.range stack.length).foldl cvStep (stack, [])

/-- The Statistics Aggregator `get_cv_table_global(tiff_data)`: per-image statistics of the non-zero
pixels of each segmented image, plus the `np.divide(cv_list, min(cv_list))`
normalization.  Returns the table together with the caller's stack as left
behind by the loop (the in-place mutation). -/
noncomputable def get_cv_table_global (stack : List Image) : CvTable × List Image :=
  let r := cvRun stack
  let cvs := r.2.map cvOpt
  ({ sd := r.2.map npStd
     average := r.2.map npMean
     nb_pixels := r.2.map List.length
     cv := cvs
     cv_relative_to_min := cvs.map fun c => divOpt c (pyMin cvs) },
   r.1)

/-! ## The Histogram Builder (`get_hist_data`) -/

/-- The Histogram Builder `get_hist_data(img)` with `nb_img == 1`: the non-zero pixels of the
segmented image, sorted (`np.ndarray.sort`), tabulated by `np.unique` into
ascending distinct values with their occurrence counts. -/
def get_hist_data (img : Image) : List ℕ × List ℕ :=
  let v := (pixels (get_segmented_image img)).filter fun x => x ≠ 0
  let s := v.insertionSort (· ≤ ·)
  let vals := s.dedup
  (vals, vals.map fun x => s.count x)

/-- The numpy assignment `tab[:, i] = vec` into a 255-row column:
broadcasting accepts exactly a length-255 vector (copied as is) or a
length-1 vector (replicated); any other length raises a `ValueError`,
modelled as the `Except` error. -/
def broadcast255 (l : List ℕ) : Except Unit (List ℕ) :=
  if l.length = 255 then .ok l
  else if l.length = 1 then .ok (List.replicate 255 (l.headD 0))
  else .error ()

/-- The `nb_img > 1` loop of `get_hist_data`: per image, the unique values
and counts are assigned into the columns of two `np.zeros((255, nb_img))`
tables; the loop stops with the broadcasting error of the first image whose
vectors do not fit. -/
def histColumns : List Image → Except Unit (List (List ℕ × List ℕ))
  | [] => .ok []
  | img :: rest => do
      let p := get_hist_data img
      let a ← broadcast255 p.1
      let b ← broadcast255 p.2
      let tl ← histColumns rest
      .ok ((a, b) :: tl)

/-- The call `get_hist_data(img, nb_img)` with `nb_img > 1`: the two 255-row tables,
column per image (column lists of the value table and of the count table). -/
def get_hist_data_multi (stack : List Image) :
    Except Unit (List (List ℕ) × List (List ℕ)) :=
  Except.map (fun cols => (cols.map Prod.fst, cols.map Prod.snd)) (histColumns stack)

/-! ## The Annotator (`get_marked_roi_and_label_single_img`)

The rendering side (label colors of `label2rgb`, the rasterized white ROI
perimeter of `polygon_perimeter`, matplotlib figures) is presentation; the
overlay artifact is modelled by the data that determines it: the cleared
mask whose 8-connected components `label` numbers and `label2rgb` tints,
and the ROI rectangle drawn on top.  The claims about this function concern
only whether the computed overlay is returned. -/

/-- The cast `img.astype(np.uint8)`: values are reduced mod 256. -/
def astypeUint8 (img : Image) : Image := img.map fun r => r.map fun v => v % 256

/-- Number of leading indices selected by the Python slice `l[:e]`. -/
def sliceStartCount (len : ℕ) (e : ℤ) : ℕ :=
  if 0 ≤ e then min e.toNat len else len - (-e).toNat

/-- First index selected by the Python slice `l[s:]`. -/
def sliceEndStart (len : ℕ) (s : ℤ) : ℕ :=
  if 0 ≤ s then min s.toNat len else len - (-s).toNat

/-- The border band of `clear_border(bw, buffer_size)`: rows `[:ext]` and
`[-ext:]` and columns `[:ext]` and `[-ext:]` with `ext = buffer_size + 1`,
with Python slice semantics for out-of-range or negative bounds. -/
def bufBand (h w : ℕ) (ext : ℤ) (i j : ℕ) : Bool :=
  decide (i < sliceStartCount h ext) || decide (sliceEndStart h (-ext) ≤ i) ||
  decide (j < sliceStartCount w ext) || decide (sliceEndStart w (-ext) ≤ j)

/-- The data determining `image_label_overlay`: the cleared mask (whose
components are labeled and tinted over the uint8 image) and the ROI
rectangle `(start pixel, end pixel)` marked on it. -/
structure Overlay where
  base : Image
  labelMask : Mask
  roiStart : ℕ × ℕ
  roiEnd : ℕ × ℕ
  deriving DecidableEq

/-- The computation of `get_marked_roi_and_label_single_img` up to the
point where the overlay exists: threshold and closing on the uint8 copy;
`clear_border` called with `buffer_size = int(512/2 - roi_minr)`, which
raises a `ValueError` (the `Except` error) when that buffer is at least one
of the image dimensions; then region labeling and the ROI rectangle, i.e.
the overlay. -/
def annotCore (img : Image) : Except Unit Overlay :=
  let image := astypeUint8 img
  let h := height image
  let w := width image
  let t := threshold_otsu image
  let bw := closing3 h w (mkMask h w fun i j => decide (pixel image i j > t))
  let c := roiCoords h w
  let buffer : ℤ := 256 - (c.1 : ℤ)
  if (h : ℤ) ≤ buffer ∨ (w : ℤ) ≤ buffer then .error ()
  else
    let cleared := clearBorderW h w (bufBand h w (buffer + 1)) bw
    .ok { base := image, labelMask := cleared,
          roiStart := (c.1, c.2.2.1), roiEnd := (c.2.1, c.2.2.2) }

/-- The Annotator `get_marked_roi_and_label_single_img(img, show, output_dir)`: the
overlay is computed either way; with `output_dir=None` it is returned, with
an `output_dir` the function saves the rendering and falls off the end —
returning `None`, not the computed overlay.  (`show` only displays, it does
not affect the returned value and is omitted.) -/
def get_marked_roi_and_label_single_img (img : Image) (outputDir : Option Unit) :
    Except Unit (Option Overlay) :=
  Except.map
    (fun ov => match outputDir with
      | none => some ov
      | some _ => none)
    (annotCore img)

/-- Two pixel coordinates are 8-neighbours. -/
def AdjacentP (p q : ℕ × ℕ) : Prop :=
  p ≠ q ∧ p.1 ≤ q.1 + 1 ∧ q.1 ≤ p.1 + 1 ∧ p.2 ≤ q.2 + 1 ∧ q.2 ≤ p.2 + 1

instance (p q : ℕ × ℕ) : Decidable (AdjacentP p q) := by
  unfold AdjacentP; infer_instance

/-- Membership in a mask, as a proposition. -/
def InMask (m : Mask) (p : ℕ × ℕ) : Prop := maskGetN m p.1 p.2 = true

instance (m : Mask) (p : ℕ × ℕ) : Decidable (InMask m p) := by
  unfold InMask; infer_instance

/-- Connectivity to the band: `p` is connected, by a chain of 8-neighbour steps staying inside the
mask, to some mask pixel of the band. -/
def BandConnected (band : ℕ → ℕ → Bool) (m : Mask) (p : ℕ × ℕ) : Prop :=
  ∃ q, InMask m q ∧ band q.1 q.2 = true ∧
    Relation.ReflTransGen (fun a b => AdjacentP a b ∧ InMask m b) q p

/-- A mask whose true pixels all lie inside the `h × w` rectangle. -/
def BoundedMask (h w : ℕ) (m : Mask) : Prop :=
  ∀ i j, maskGetN m i j = true → i < h ∧ j < w

/-- The finite grid of pixel coordinates. -/
def grid (h w : ℕ) : Finset (ℕ × ℕ) := Finset.range h ×ˢ Finset.range w

/-- The set-level version of one spreading step. -/
def stepSet (h w : ℕ) (m : Mask) (S : Finset (ℕ × ℕ)) : Finset (ℕ × ℕ) :=
  (grid h w).filter fun p =>
    InMask m p ∧ (p ∈ S ∨ ∃ q ∈ S, AdjacentP q p)

/-- The set-level seed. -/
def seedSet (h w : ℕ) (band : ℕ → ℕ → Bool) (m : Mask) : Finset (ℕ × ℕ) :=
  (grid h w).filter fun p => InMask m p ∧ band p.1 p.2 = true

/-- The mask as a finite set. -/
def maskSet (h w : ℕ) (m : Mask) : Finset (ℕ × ℕ) :=
  (grid h w).filter fun p => InMask m p

/-! ## Concrete test inputs

These small images are used as the concrete inputs of witnesses and
counterexamples.  They were chosen so that the relevant pipeline behaviour
is exercised: isolated interior blocks survive segmentation, blocks in the
border band are removed, constant images segment to nothing. -/

/-- A 5×5 image with one bright centre pixel. -/
def imgW5 : Image :=
  [[0, 0, 0, 0, 0],
   [0, 0, 0, 0, 0],
   [0, 0, 9, 0, 0],
   [0, 0, 0, 0, 0],
   [0, 0, 0, 0, 0]]

/-- A 7×7 image whose central 2×2 block holds the values 20 and 30. -/
def imgA7 : Image :=
  [[0, 0, 0, 0, 0, 0, 0],
   [0, 0, 0, 0, 0, 0, 0],
   [0, 0, 0, 0, 0, 0, 0],
   [0, 0, 0, 20, 30, 0, 0],
   [0, 0, 0, 20, 30, 0, 0],
   [0, 0, 0, 0, 0, 0, 0],
   [0, 0, 0, 0, 0, 0, 0]]

/-- A 7×7 image whose central 2×2 block holds the values 30 and 50. -/
def imgB7 : Image :=
  [[0, 0, 0, 0, 0, 0, 0],
   [0, 0, 0, 0, 0, 0, 0],
   [0, 0, 0, 0, 0, 0, 0],
   [0, 0, 0, 30, 50, 0, 0],
   [0, 0, 0, 30, 50, 0, 0],
   [0, 0, 0, 0, 0, 0, 0],
   [0, 0, 0, 0, 0, 0, 0]]

/-- An 11×11 image whose only bright pixels (a 2×2 block of 9s at rows 2–3,
columns 7–8) lie entirely outside the central ROI (rows/columns 3–6). -/
def imgC11 : Image :=
  (List.range 11).map fun i => (List.range 11).map fun j =>
    if 2 ≤ i ∧ i ≤ 3 ∧ 7 ≤ j ∧ j ≤ 8 then 9 else 0

/-- A 7×7 image with background 1 and an interior 2×2 block of 9s: the
background is below the Otsu threshold, so segmentation zeroes it. -/
def imgD7 : Image :=
  [[1, 1, 1, 1, 1, 1, 1],
   [1, 1, 1, 1, 1, 1, 1],
   [1, 1, 9, 9, 1, 1, 1],
   [1, 1, 9, 9, 1, 1, 1],
   [1, 1, 1, 1, 1, 1, 1],
   [1, 1, 1, 1, 1, 1, 1],
   [1, 1, 1, 1, 1, 1, 1]]

/-- A 7×7 image with an interior 2×2 block of 9s on background 0: its
segmented form has exactly one distinct non-zero intensity. -/
def imgE7a : Image :=
  [[0, 0, 0, 0, 0, 0, 0],
   [0, 0, 0, 0, 0, 0, 0],
   [0, 0, 9, 9, 0, 0, 0],
   [0, 0, 9, 9, 0, 0, 0],
   [0, 0, 0, 0, 0, 0, 0],
   [0, 0, 0, 0, 0, 0, 0],
   [0, 0, 0, 0, 0, 0, 0]]

/-- A 7×7 image with an interior 2×2 block of 5s on background 0. -/
def imgE7b : Image :=
  [[0, 0, 0, 0, 0, 0, 0],
   [0, 0, 0, 0, 0, 0, 0],
   [0, 0, 5, 5, 0, 0, 0],
   [0, 0, 5, 5, 0, 0, 0],
   [0, 0, 0, 0, 0, 0, 0],
   [0, 0, 0, 0, 0, 0, 0],
   [0, 0, 0, 0, 0, 0, 0]]

/-- A 5×5 constant image: Otsu's constant-image short circuit makes the
strictly-above-threshold mask empty, so segmentation leaves no pixel. -/
def imgK5 : Image :=
  [[7, 7, 7, 7, 7],
   [7, 7, 7, 7, 7],
   [7, 7, 7, 7, 7],
   [7, 7, 7, 7, 7],
   [7, 7, 7, 7, 7]]

/-- A 6×7 image on which the Segmenter is not idempotent: the first pass keeps
the pixels 9, 2, 9 around the centre (the 2 survives through closing), and
removes the border-touching 9s; the second pass, seeing the changed
histogram, thresholds at 2 and zeroes the surviving 2. -/
def imgF67 : Image :=
  [[1, 0, 1, 2, 1, 2, 9],
   [9, 2, 1, 2, 0, 2, 1],
   [0, 1, 9, 2, 0, 1, 9],
   [1, 2, 2, 9, 2, 2, 2],
   [2, 1, 2, 0, 0, 1, 0],
   [1, 9, 1, 0, 2, 2, 0]]

/-- A 13×13 zero image (the claim about ROI dimensions is about shape only). -/
def imgZ13 : Image := List.replicate 13 (List.replicate 13 0)

/-- Following the spec's words, not the code (for comparison): the per-image
pixel population of the Statistics Aggregator as the spec describes it,
taken downstream of the ROI Extractor — the non-zero pixels of the
segmented CENTRAL ROI CROP.  The code (`get_cv_table_global`, which calls
`get_segmented_image(tiff_data[i])` directly) instead uses `ballIntensity`,
the non-zero pixels of the segmented WHOLE image. -/
def roiFirstBallIntensity (img : Image) : List ℕ := ballIntensity (roiCrop img)

/-! ## Basic lemmas about masks, images and the spreading iteration -/

theorem mkMask_get (h w : ℕ) (f : ℕ → ℕ → Bool) (i j : ℕ) :
    maskGetN (mkMask h w f) i j = if i < h ∧ j < w then f i j else false := by
  unfold maskGetN mkMask
  simp only [List.getD_eq_getElem?_getD, List.getElem?_map]
  rcases Nat.lt_or_ge i h with hi | hi
  · rw [List.getElem?_range hi]
    rcases Nat.lt_or_ge j w with hj | hj
    · rw [Option.map_some', Option.getD_some, List.getElem?_map,
        List.getElem?_range hj]
      simp [hi, hj]
    · have hn : (List.range w)[j]? = none := List.getElem?_eq_none (by simpa using hj)
      rw [Option.map_some', Option.getD_some, List.getElem?_map, hn]
      simp [Nat.not_lt.mpr hj]
  · have hn : (List.range h)[i]? = none := List.getElem?_eq_none (by simpa using hi)
    rw [hn]
    simp [Nat.not_lt.mpr hi]

theorem mkMask_bounded (h w : ℕ) (f : ℕ → ℕ → Bool) : BoundedMask h w (mkMask h w f) := by
  intro i j hij
  rw [mkMask_get] at hij
  by_cases hb : i < h ∧ j < w
  · exact hb
  · rw [if_neg hb] at hij; cases hij

theorem maskGet_iff (r : Mask) (a b : ℤ) :
    maskGet r a b = true ↔ 0 ≤ a ∧ 0 ≤ b ∧ maskGetN r a.toNat b.toNat = true := by
  simp [maskGet, Bool.and_eq_true, decide_eq_true_iff, and_assoc]

/-- Pointwise description of the segmented image. -/
theorem pixel_seg (img : Image) (i j : ℕ) :
    pixel (get_segmented_image img) i j =
      if i < height img ∧ j < width img then
        (if maskGetN (segMask img) i j then pixel img i j else 0)
      else 0 := by
  conv_lhs => unfold get_segmented_image
  unfold pixel
  simp only [List.getD_eq_getElem?_getD, List.getElem?_map]
  rcases Nat.lt_or_ge i (height img) with hi | hi
  · rw [List.getElem?_range hi]
    rcases Nat.lt_or_ge j (width img) with hj | hj
    · rw [Option.map_some', Option.getD_some, List.getElem?_map,
        List.getElem?_range hj]
      simp only [Option.map_some', Option.getD_some]
      rw [if_pos (And.intro hi hj)]
    · have hn : (List.range (width img))[j]? = none :=
        List.getElem?_eq_none (by simpa using hj)
      rw [Option.map_some', Option.getD_some, List.getElem?_map, hn,
        if_neg (fun h : _ ∧ _ => Nat.not_lt.mpr hj h.2)]
      rfl
  · have hn : (List.range (height img))[i]? = none :=
      List.getElem?_eq_none (by simpa using hi)
    rw [hn, if_neg (fun h : _ ∧ _ => Nat.not_lt.mpr hi h.1)]
    rfl

theorem iterStable_eq (f : Mask → Mask) :
    ∀ (n : ℕ) (r : Mask), iterStable f n r = f^[n] r := by
  intro n
  induction n with
  | zero => intro r; rfl
  | succ k ih =>
      intro r
      by_cases hf : f r = r
      · rw [iterStable, if_pos hf, Function.iterate_fixed hf]
      · rw [iterStable, if_neg hf, ih (f r), ← Function.iterate_succ_apply]

/-! ## Correctness of the border-clearing iteration

The executable `bandReach` saturates a one-step spread.  Here it is proved
to coincide with the declarative notion of 8-connectivity to a band pixel
within the mask (`BandConnected`), which is how the specification describes
`clear_border`. -/

theorem mem_grid (h w : ℕ) (p : ℕ × ℕ) : p ∈ grid h w ↔ p.1 < h ∧ p.2 < w := by
  unfold grid
  rw [Finset.mem_product, Finset.mem_range, Finset.mem_range]

/-- The neighbour scan of the executable step finds exactly the mask pixels
adjacent to the centre. -/
theorem adj8_any_iff (r : Mask) (i j : ℕ) :
    (adj8.any fun d => maskGet r ((i : ℤ) + d.1) ((j : ℤ) + d.2)) = true ↔
      ∃ q : ℕ × ℕ, maskGetN r q.1 q.2 = true ∧ AdjacentP q (i, j) := by
  constructor
  · intro hany
    rcases List.any_eq_true.mp hany with ⟨d, hd, hget⟩
    rw [maskGet_iff] at hget
    rcases hget with ⟨h1, h2, h3⟩
    refine ⟨(((i : ℤ) + d.1).toNat, ((j : ℤ) + d.2).toNat), h3, ?_⟩
    have hd' : d = (-1, -1) ∨ d = (-1, 0) ∨ d = (-1, 1) ∨ d = (0, -1) ∨
        d = (0, 1) ∨ d = (1, -1) ∨ d = (1, 0) ∨ d = (1, 1) := by
      simpa [adj8] using hd
    unfold AdjacentP
    rcases hd' with h | h | h | h | h | h | h | h <;>
      · subst h
        constructor
        · intro hc
          have hc1 := congrArg Prod.fst hc
          have hc2 := congrArg Prod.snd hc
          simp only at hc1 hc2
          omega
        · simp only
          omega
  · rintro ⟨q, hq, hadj⟩
    rcases hadj with ⟨hne, hb1, hb2, hb3, hb4⟩
    apply List.any_eq_true.mpr
    refine ⟨((q.1 : ℤ) - i, (q.2 : ℤ) - j), ?_, ?_⟩
    · have e1 : (q.1 : ℤ) - i = -1 ∨ (q.1 : ℤ) - i = 0 ∨ (q.1 : ℤ) - i = 1 := by
        simp only at hb1 hb2; omega
      have e2 : (q.2 : ℤ) - j = -1 ∨ (q.2 : ℤ) - j = 0 ∨ (q.2 : ℤ) - j = 1 := by
        simp only at hb3 hb4; omega
      have hne' : ¬((q.1 : ℤ) - i = 0 ∧ (q.2 : ℤ) - j = 0) := by
        rintro ⟨z1, z2⟩
        apply hne
        have : q.1 = i := by omega
        have : q.2 = j := by omega
        exact Prod.ext (by omega) (by omega)
      rcases e1 with e | e | e <;> rcases e2 with e' | e' | e' <;>
        simp [adj8, Prod.ext_iff, e, e'] <;> omega
    · rw [maskGet_iff]
      refine ⟨by omega, by omega, ?_⟩
      have t1 : ((i : ℤ) + ((q.1 : ℤ) - i)).toNat = q.1 := by omega
      have t2 : ((j : ℤ) + ((q.2 : ℤ) - j)).toNat = q.2 := by omega
      rw [t1, t2]
      exact hq

theorem bandSeed_get (h w : ℕ) (band : ℕ → ℕ → Bool) (m : Mask) (p : ℕ × ℕ) :
    maskGetN (bandSeed h w band m) p.1 p.2 = true ↔ p ∈ seedSet h w band m := by
  unfold bandSeed seedSet
  rw [mkMask_get, Finset.mem_filter, mem_grid]
  by_cases hb : p.1 < h ∧ p.2 < w
  · rw [if_pos hb]
    simp [InMask, Bool.and_eq_true, hb, and_assoc]
  · rw [if_neg hb]
    simp [hb]

theorem stepReach_get (h w : ℕ) (m r : Mask) (p : ℕ × ℕ) :
    maskGetN (stepReach h w m r) p.1 p.2 = true ↔
      (p.1 < h ∧ p.2 < w) ∧ InMask m p ∧
        (InMask r p ∨ ∃ q, InMask r q ∧ AdjacentP q p) := by
  unfold stepReach
  rw [mkMask_get]
  by_cases hb : p.1 < h ∧ p.2 < w
  · rw [if_pos hb]
    simp only [Bool.and_eq_true, Bool.or_eq_true, adj8_any_iff, InMask, hb, true_and]
  · rw [if_neg hb]
    simp [hb]

theorem reach_correspond (h w : ℕ) (band : ℕ → ℕ → Bool) (m : Mask) (n : ℕ) :
    ∀ p : ℕ × ℕ,
      maskGetN ((stepReach h w m)^[n] (bandSeed h w band m)) p.1 p.2 = true ↔
        p ∈ (stepSet h w m)^[n] (seedSet h w band m) := by
  induction n with
  | zero => exact bandSeed_get h w band m
  | succ k ih =>
      intro p
      rw [Function.iterate_succ_apply', Function.iterate_succ_apply',
        stepReach_get]
      unfold stepSet
      rw [Finset.mem_filter, mem_grid]
      constructor
      · rintro ⟨hb, hm, hor⟩
        refine ⟨hb, hm, ?_⟩
        rcases hor with hin | ⟨q, hq, hadj⟩
        · exact Or.inl ((ih p).mp hin)
        · exact Or.inr ⟨q, (ih q).mp hq, hadj⟩
      · rintro ⟨hb, hm, hor⟩
        refine ⟨hb, hm, ?_⟩
        rcases hor with hin | ⟨q, hq, hadj⟩
        · exact Or.inl ((ih p).mpr hin)
        · exact Or.inr ⟨q, (ih q).mpr hq, hadj⟩

theorem seedSet_subset_maskSet (h w : ℕ) (band : ℕ → ℕ → Bool) (m : Mask) :
    seedSet h w band m ⊆ maskSet h w m := by
  intro p hp
  rw [seedSet, Finset.mem_filter] at hp
  rw [maskSet, Finset.mem_filter]
  exact ⟨hp.1, hp.2.1⟩

theorem stepSet_subset_maskSet (h w : ℕ) (m : Mask) (S : Finset (ℕ × ℕ)) :
    stepSet h w m S ⊆ maskSet h w m := by
  intro p hp
  rw [stepSet, Finset.mem_filter] at hp
  rw [maskSet, Finset.mem_filter]
  exact ⟨hp.1, hp.2.1⟩

theorem subset_stepSet (h w : ℕ) (m : Mask) (S : Finset (ℕ × ℕ))
    (hS : S ⊆ maskSet h w m) : S ⊆ stepSet h w m S := by
  intro p hp
  have := hS hp
  rw [maskSet, Finset.mem_filter] at this
  rw [stepSet, Finset.mem_filter]
  exact ⟨this.1, this.2, Or.inl hp⟩

theorem stepSet_mono (h w : ℕ) (m : Mask) {S T : Finset (ℕ × ℕ)} (hST : S ⊆ T) :
    stepSet h w m S ⊆ stepSet h w m T := by
  intro p hp
  rw [stepSet, Finset.mem_filter] at hp ⊢
  refine ⟨hp.1, hp.2.1, ?_⟩
  rcases hp.2.2 with hin | ⟨q, hq, hadj⟩
  · exact Or.inl (hST hin)
  · exact Or.inr ⟨q, hST hq, hadj⟩

theorem iterate_subset_maskSet (h w : ℕ) (band : ℕ → ℕ → Bool) (m : Mask) :
    ∀ n, (stepSet h w m)^[n] (seedSet h w band m) ⊆ maskSet h w m := by
  intro n
  cases n with
  | zero => exact seedSet_subset_maskSet h w band m
  | succ k =>
      rw [Function.iterate_succ_apply']
      exact stepSet_subset_maskSet h w m _

theorem iterate_chain (h w : ℕ) (band : ℕ → ℕ → Bool) (m : Mask) (n : ℕ) :
    (stepSet h w m)^[n] (seedSet h w band m) ⊆
      (stepSet h w m)^[n + 1] (seedSet h w band m) := by
  induction n with
  | zero =>
      exact subset_stepSet h w m _ (seedSet_subset_maskSet h w band m)
  | succ k ih =>
      rw [Function.iterate_succ_apply', Function.iterate_succ_apply']
      exact stepSet_mono h w m ih

theorem iterate_mono_le (h w : ℕ) (band : ℕ → ℕ → Bool) (m : Mask) {a b : ℕ}
    (hab : a ≤ b) :
    (stepSet h w m)^[a] (seedSet h w band m) ⊆
      (stepSet h w m)^[b] (seedSet h w band m) := by
  induction b with
  | zero =>
      have : a = 0 := Nat.le_zero.mp hab
      subst this
      exact fun p hp => hp
  | succ k ih =>
      rcases Nat.lt_or_ge a (k + 1) with hk | hk
      · exact fun p hp =>
          iterate_chain h w band m k (ih (Nat.lt_succ_iff.mp hk) hp)
      · have : a = k + 1 := Nat.le_antisymm hab hk
        subst this
        exact fun p hp => hp

theorem card_maskSet_le (h w : ℕ) (m : Mask) : (maskSet h w m).card ≤ h * w := by
  calc (maskSet h w m).card ≤ (grid h w).card := Finset.card_filter_le _ _
    _ = h * w := by rw [grid, Finset.card_product, Finset.card_range, Finset.card_range]

theorem exists_fixpoint (h w : ℕ) (band : ℕ → ℕ → Bool) (m : Mask) :
    ∃ k ≤ (maskSet h w m).card,
      stepSet h w m ((stepSet h w m)^[k] (seedSet h w band m)) =
        (stepSet h w m)^[k] (seedSet h w band m) := by
  by_contra hno
  push_neg at hno
  have grow : ∀ k ≤ (maskSet h w m).card + 1,
      k ≤ ((stepSet h w m)^[k] (seedSet h w band m)).card := by
    intro k
    induction k with
    | zero => intro _; exact Nat.zero_le _
    | succ j ih =>
        intro hj
        have hj' : j ≤ (maskSet h w m).card := by omega
        have hne := hno j hj'
        have hsub : (stepSet h w m)^[j] (seedSet h w band m) ⊂
            (stepSet h w m)^[j + 1] (seedSet h w band m) := by
          refine Finset.ssubset_iff_subset_ne.mpr ⟨iterate_chain h w band m j, ?_⟩
          rw [Function.iterate_succ_apply']
          intro he
          exact hne he.symm
        have := Finset.card_lt_card hsub
        have := ih (by omega)
        omega
  have h1 := grow ((maskSet h w m).card + 1) le_rfl
  have h2 : ((stepSet h w m)^[(maskSet h w m).card + 1]
      (seedSet h w band m)).card ≤ (maskSet h w m).card :=
    Finset.card_le_card (iterate_subset_maskSet h w band m _)
  omega

/-- Every iterate is contained in the `h*w`-th iterate: the chain reaches a
fixed point within `card (maskSet) ≤ h*w` steps and is constant afterwards. -/
theorem iterate_le_limit (h w : ℕ) (band : ℕ → ℕ → Bool) (m : Mask) (n : ℕ) :
    (stepSet h w m)^[n] (seedSet h w band m) ⊆
      (stepSet h w m)^[h * w] (seedSet h w band m) := by
  rcases Nat.lt_or_ge (h * w) n with hn | hn
  case inr => exact iterate_mono_le h w band m hn
  · obtain ⟨k, hk, hfix⟩ := exists_fixpoint h w band m
    have hkhw : k ≤ h * w := le_trans hk (card_maskSet_le h w m)
    have stable : ∀ j, k ≤ j →
        (stepSet h w m)^[j] (seedSet h w band m) =
          (stepSet h w m)^[k] (seedSet h w band m) := by
      intro j hj
      obtain ⟨d, rfl⟩ := Nat.exists_eq_add_of_le hj
      rw [Nat.add_comm, Function.iterate_add_apply]
      exact Function.iterate_fixed hfix d
    rw [stable n (by omega), ← stable (h * w) hkhw]

theorem iterate_sound (h w : ℕ) (band : ℕ → ℕ → Bool) (m : Mask) :
    ∀ n p, p ∈ (stepSet h w m)^[n] (seedSet h w band m) →
      BandConnected band m p := by
  intro n
  induction n with
  | zero =>
      intro p hp
      rw [Function.iterate_zero_apply, seedSet, Finset.mem_filter] at hp
      exact ⟨p, hp.2.1, hp.2.2, Relation.ReflTransGen.refl⟩
  | succ k ih =>
      intro p hp
      rw [Function.iterate_succ_apply', stepSet, Finset.mem_filter] at hp
      rcases hp.2.2 with hin | ⟨q, hq, hadj⟩
      · exact ih p hin
      · obtain ⟨q0, hm0, hband0, hpath⟩ := ih q hq
        exact ⟨q0, hm0, hband0, hpath.tail ⟨hadj, hp.2.1⟩⟩

theorem iterate_complete (h w : ℕ) (band : ℕ → ℕ → Bool) (m : Mask)
    (hbd : BoundedMask h w m) (p : ℕ × ℕ) (hbc : BandConnected band m p) :
    p ∈ (stepSet h w m)^[h * w] (seedSet h w band m) := by
  obtain ⟨q, hm, hband, hpath⟩ := hbc
  have key : ∃ n, p ∈ (stepSet h w m)^[n] (seedSet h w band m) := by
    induction hpath with
    | refl =>
        refine ⟨0, ?_⟩
        rw [Function.iterate_zero_apply, seedSet, Finset.mem_filter, mem_grid]
        exact ⟨hbd q.1 q.2 hm, hm, hband⟩
    | tail hab hbc ih =>
        obtain ⟨n, hn⟩ := ih
        refine ⟨n + 1, ?_⟩
        rw [Function.iterate_succ_apply', stepSet, Finset.mem_filter, mem_grid]
        exact ⟨hbd _ _ hbc.2, hbc.2, Or.inr ⟨_, hn, hbc.1⟩⟩
  obtain ⟨n, hn⟩ := key
  exact iterate_le_limit h w band m n hn

/-- Correctness of the executable border spreading: a pixel is marked by
`bandReach` exactly when it is a mask pixel 8-connected to the band. -/
theorem bandReach_iff (h w : ℕ) (band : ℕ → ℕ → Bool) (m : Mask)
    (hbd : BoundedMask h w m) (p : ℕ × ℕ) :
    maskGetN (bandReach h w band m) p.1 p.2 = true ↔ BandConnected band m p := by
  unfold bandReach
  rw [iterStable_eq, reach_correspond]
  constructor
  · exact iterate_sound h w band m (h * w) p
  · exact iterate_complete h w band m hbd p

/-- Correctness of `clearBorderW`: the surviving pixels are exactly the mask
pixels not 8-connected to the band. -/
theorem clearBorderW_iff (h w : ℕ) (band : ℕ → ℕ → Bool) (m : Mask)
    (hbd : BoundedMask h w m) (p : ℕ × ℕ) :
    maskGetN (clearBorderW h w band m) p.1 p.2 = true ↔
      InMask m p ∧ ¬ BandConnected band m p := by
  unfold clearBorderW
  rw [mkMask_get]
  by_cases hb : p.1 < h ∧ p.2 < w
  · rw [if_pos hb]
    rw [Bool.and_eq_true, Bool.not_eq_true', ← Bool.not_eq_true]
    rw [bandReach_iff h w band m hbd p]
    exact Iff.rfl.and Iff.rfl
  · rw [if_neg hb]
    constructor
    · intro hfalse; cases hfalse
    · rintro ⟨hm, -⟩
      exact absurd (hbd p.1 p.2 hm) hb

theorem closing3_bounded (h w : ℕ) (m : Mask) : BoundedMask h w (closing3 h w m) :=
  mkMask_bounded h w _

/-- The surviving mask of the Segmenter, characterised declaratively: a pixel
survives iff it lies in the 3×3-closed strictly-above-threshold mask and its
8-connected component within that mask does not touch the border band. -/
theorem segMask_iff (img : Image) (p : ℕ × ℕ) :
    maskGetN (segMask img) p.1 p.2 = true ↔
      InMask (closing3 (height img) (width img) (aboveThresh img)) p ∧
        ¬ BandConnected (fun a b => inBand (height img) (width img) a b)
            (closing3 (height img) (width img) (aboveThresh img)) p := by
  unfold segMask clear_border
  exact clearBorderW_iff _ _ _ _ (closing3_bounded _ _ _) p

/-! ## Claim C3: the Segmenter's output -/

/-- C3: for every 2D image accepted by the Segmenter, the output equals the
input with every pixel outside the surviving mask set to zero and every
surviving pixel keeping its original intensity, where the surviving mask is
the set of pixels strictly above the Otsu threshold, morphologically closed
with a 3×3 structuring neighbourhood, with every connected component
touching the image border removed. -/
theorem C3_segmenter_output (img : Image) (i j : ℕ)
    (hi : i < height img) (hj : j < width img) :
    (InMask (closing3 (height img) (width img) (aboveThresh img)) (i, j) ∧
        ¬ BandConnected (fun a b => inBand (height img) (width img) a b)
            (closing3 (height img) (width img) (aboveThresh img)) (i, j) →
      pixel (get_segmented_image img) i j = pixel img i j) ∧
    (¬ (InMask (closing3 (height img) (width img) (aboveThresh img)) (i, j) ∧
        ¬ BandConnected (fun a b => inBand (height img) (width img) a b)
            (closing3 (height img) (width img) (aboveThresh img)) (i, j)) →
      pixel (get_segmented_image img) i j = 0) := by
  have hs := segMask_iff img (i, j)
  have hp := pixel_seg img i j
  rw [if_pos (And.intro hi hj)] at hp
  constructor
  · intro hsurvive
    rw [hp, if_pos (hs.mpr hsurvive)]
  · intro hdead
    rcases Bool.eq_false_or_eq_true (maskGetN (segMask img) i j) with ht | hf
    · exact absurd (hs.mp ht) hdead
    · rw [hp, if_neg ?_]
      rw [hf]
      exact Bool.false_ne_true

/-- Witness for C3 at the concrete image `imgW5`: the centre pixel survives
(`9` is kept) and a corner pixel is zeroed.  The non-connectivity hypothesis
is discharged by evaluating the executable `bandReach` and transporting
along `bandReach_iff`. -/
theorem C3_segmenter_output_witness :
    pixel (get_segmented_image imgW5) 2 2 = pixel imgW5 2 2 ∧
      pixel (get_segmented_image imgW5) 0 0 = 0 := by
  constructor
  · apply (C3_segmenter_output imgW5 2 2 (by decide) (by decide)).1
    refine ⟨by decide, fun hbc => ?_⟩
    have hr := (bandReach_iff (height imgW5) (width imgW5)
      (fun a b => inBand (height imgW5) (width imgW5) a b)
      (closing3 (height imgW5) (width imgW5) (aboveThresh imgW5))
      (closing3_bounded _ _ _) (2, 2)).mpr hbc
    have hfalse : maskGetN (bandReach (height imgW5) (width imgW5)
        (fun a b => inBand (height imgW5) (width imgW5) a b)
        (closing3 (height imgW5) (width imgW5) (aboveThresh imgW5))) 2 2 = false := by
      decide
    rw [hfalse] at hr
    cases hr
  · apply (C3_segmenter_output imgW5 0 0 (by decide) (by decide)).2
    rintro ⟨hm, -⟩
    have hfalse : maskGetN (closing3 (height imgW5) (width imgW5)
        (aboveThresh imgW5)) 0 0 = false := by decide
    rw [InMask, hfalse] at hm
    cases hm

/-! ## Claim C6: idempotence of the Segmenter -/

/-- C6 counterexample: on `imgF67` the second application of the Segmenter
zeroes one more pixel (the surviving 2), so the Segmenter is not
idempotent. -/
theorem C6_idempotence_counterexample :
    get_segmented_image (get_segmented_image imgF67) ≠ get_segmented_image imgF67 := by
  decide

/-- C6 amended: applying the Segmenter to its own output is a pixelwise
restriction of the single application — every pixel either keeps the first
output's value or is zeroed — but exact idempotence fails (see the
counterexample): re-thresholding the segmented image can zero further
pixels. -/
theorem C6_idempotence_amended (img : Image) (i j : ℕ) :
    pixel (get_segmented_image (get_segmented_image img)) i j =
        pixel (get_segmented_image img) i j ∨
      pixel (get_segmented_image (get_segmented_image img)) i j = 0 := by
  rw [pixel_seg (get_segmented_image img) i j]
  by_cases hb : i < height (get_segmented_image img) ∧
      j < width (get_segmented_image img)
  · rw [if_pos hb]
    by_cases hm : maskGetN (segMask (get_segmented_image img)) i j = true
    · rw [if_pos hm]
      exact Or.inl rfl
    · rw [if_neg hm]
      exact Or.inr rfl
  · rw [if_neg hb]
    exact Or.inr rfl

/-! ## Claim C4: ROI dimensions -/

/-- C4 counterexample: for a 13×13 image the claimed output height
`floor(0.4·13) = 5` is wrong — the crop `[startx:endx]` with
`startx = 13//2 - 5//2`, `endx = 13//2 + 5//2` has height `2*(5//2) = 4`. -/
theorem C4_roi_dims_counterexample :
    height (roiCrop imgZ13) ≠ 2 * height imgZ13 / 5 := by decide

theorem headD_eq_getElem? {α : Type} (l : List α) (d : α) :
    l.headD d = l[0]?.getD d := by
  cases l
  · rfl
  · simp

/-- C4 amended: with `h = floor(0.4·H)` and `w = floor(0.4·W)` the crop of
`get_roi_default` has dimensions `2*(h//2) × 2*(w//2)` (so `h × w` exactly
when `h` and `w` are even), with `start = H//2 - h//2`,
`end = H//2 + h//2`, and `start + size = end` for the actual size. -/
theorem C4_roi_dims_amended (img : Image) (hR : Rectangular img)
    (hH : 5 ≤ height img) (hW : 5 ≤ width img) :
    height (roiCrop img) = 2 * (2 * height img / 5 / 2) ∧
    width (roiCrop img) = 2 * (2 * width img / 5 / 2) ∧
    (roiCoords (height img) (width img)).1 =
      height img / 2 - 2 * height img / 5 / 2 ∧
    (roiCoords (height img) (width img)).2.1 =
      height img / 2 + 2 * height img / 5 / 2 ∧
    (roiCoords (height img) (width img)).1 + height (roiCrop img) =
      (roiCoords (height img) (width img)).2.1 ∧
    (roiCoords (height img) (width img)).2.2.1 + width (roiCrop img) =
      (roiCoords (height img) (width img)).2.2.2 := by
  obtain ⟨hne, hwpos, hrow⟩ := hR
  have hlen : img.length = height img := rfl
  have hcrop : roiCrop img =
      ((img.drop (height img / 2 - 2 * height img / 5 / 2)).take
        ((height img / 2 + 2 * height img / 5 / 2) -
          (height img / 2 - 2 * height img / 5 / 2))).map
        (fun r => (r.drop (width img / 2 - 2 * width img / 5 / 2)).take
          ((width img / 2 + 2 * width img / 5 / 2) -
            (width img / 2 - 2 * width img / 5 / 2))) := rfl
  have hco : roiCoords (height img) (width img) =
      (height img / 2 - 2 * height img / 5 / 2,
       height img / 2 + 2 * height img / 5 / 2,
       width img / 2 - 2 * width img / 5 / 2,
       width img / 2 + 2 * width img / 5 / 2) := rfl
  -- the number of cropped rows
  have hrows : height (roiCrop img) = 2 * (2 * height img / 5 / 2) := by
    rw [show height (roiCrop img) = (roiCrop img).length from rfl, hcrop,
      List.length_map, List.length_take, List.length_drop, hlen]
    omega
  -- the width of the cropped rows
  have hcols : width (roiCrop img) = 2 * (2 * width img / 5 / 2) := by
    have hc1 : height img / 2 - 2 * height img / 5 / 2 < img.length := by
      rw [hlen]; omega
    have hhead : ((img.drop (height img / 2 - 2 * height img / 5 / 2)).take
        ((height img / 2 + 2 * height img / 5 / 2) -
          (height img / 2 - 2 * height img / 5 / 2)))[0]? =
        some (img.getD (height img / 2 - 2 * height img / 5 / 2) []) := by
      rw [List.getElem?_take, if_pos (by omega), List.getElem?_drop, Nat.add_zero,
        List.getElem?_eq_getElem hc1, List.getD_eq_getElem img [] hc1]
    have hmem : img.getD (height img / 2 - 2 * height img / 5 / 2) [] ∈ img := by
      rw [List.getD_eq_getElem img [] hc1]
      exact List.getElem_mem hc1
    have hrowlen :
        (img.getD (height img / 2 - 2 * height img / 5 / 2) []).length = width img :=
      hrow _ hmem
    rw [show width (roiCrop img) = ((roiCrop img).headD []).length from rfl, hcrop,
      headD_eq_getElem?, List.getElem?_map, hhead, Option.map_some',
      Option.getD_some, List.length_take, List.length_drop, hrowlen]
    omega
  rw [hco]
  refine ⟨hrows, hcols, rfl, rfl, ?_, ?_⟩
  · show (height img / 2 - 2 * height img / 5 / 2) + height (roiCrop img) =
      height img / 2 + 2 * height img / 5 / 2
    rw [hrows]
    omega
  · show (width img / 2 - 2 * width img / 5 / 2) + width (roiCrop img) =
      width img / 2 + 2 * width img / 5 / 2
    rw [hcols]
    omega

/-- Witness for the amended C4 at the 13×13 input: the crop is 4×4 (here
`2*(floor(0.4·13)//2) = 4`), one less per dimension than the claimed 5. -/
theorem C4_roi_dims_amended_witness :
    height (roiCrop imgZ13) = 2 * (2 * height imgZ13 / 5 / 2) :=
  (C4_roi_dims_amended imgZ13 (by decide) (by decide) (by decide)).1

/-! ## Claim C7: mutation of the input stack -/

theorem set_append_length {α : Type} (pre : List α) (x y : α) (rest : List α) :
    (pre ++ x :: rest).set pre.length y = pre ++ y :: rest := by
  induction pre with
  | nil => rfl
  | cons a l ih => simp [List.set, ih]

theorem getD_append_length {α : Type} (pre : List α) (x : α) (rest : List α)
    (d : α) : (pre ++ x :: rest).getD pre.length d = x := by
  induction pre with
  | nil => rfl
  | cons a l ih => simpa using ih

/-- The loop of `get_cv_table_global` leaves every stack entry overwritten
by its segmented form and collects exactly the per-image non-zero pixel
vectors of the segmented images. -/
theorem cvRun_aux :
    ∀ (post pre : List Image) (bs : List (List ℕ)),
      (List.range' pre.length post.length).foldl cvStep (pre ++ post, bs) =
        (pre ++ post.map get_segmented_image, bs ++ post.map ballIntensity) := by
  intro post
  induction post with
  | nil => intro pre bs; simp
  | cons x rest ih =>
      intro pre bs
      rw [List.length_cons, List.range'_succ, List.foldl_cons]
      have hstep : cvStep (pre ++ x :: rest, bs) pre.length =
          (pre ++ get_segmented_image x :: rest, bs ++ [ballIntensity x]) := by
        simp only [cvStep]
        rw [getD_append_length, set_append_length]
        rfl
      rw [hstep]
      have := ih (pre ++ [get_segmented_image x]) (bs ++ [ballIntensity x])
      rw [List.length_append, List.length_singleton, List.append_assoc,
        List.singleton_append] at this
      rw [this, List.append_assoc, List.singleton_append, List.append_assoc,
        List.singleton_append]
      rfl

theorem cvRun_eq (stack : List Image) :
    cvRun stack = (stack.map get_segmented_image, stack.map ballIntensity) := by
  unfold cvRun
  have := cvRun_aux stack [] []
  simpa [List.range_eq_range'] using this

/-- C7 counterexample: `get_cv_table_global` hands back a mutated stack; on
the one-image stack `[imgD7]` the background pixels (value 1, below the
Otsu threshold) have been zeroed in the caller's array. -/
theorem C7_immutability_counterexample :
    (get_cv_table_global [imgD7]).2 ≠ [imgD7] := by
  have hsnd : (get_cv_table_global [imgD7]).2 = (cvRun [imgD7]).1 := rfl
  rw [hsnd, cvRun_eq]
  decide

/-- C7 amended: far from leaving the input unchanged, the CV-table loop
overwrites every image of the caller's stack with its segmented form
(pixels outside the surviving mask zeroed in place). -/
theorem C7_immutability_amended (stack : List Image) :
    (get_cv_table_global stack).2 = stack.map get_segmented_image := by
  have hsnd : (get_cv_table_global stack).2 = (cvRun stack).1 := rfl
  rw [hsnd, cvRun_eq]

/-! ## Claim C5: empty segmentation -/

theorem cvOpt_nil : cvOpt [] = none := by
  unfold cvOpt
  rw [if_pos rfl]

theorem npStd_nil : npStd [] = none := by
  unfold npStd
  rw [if_pos rfl]

theorem npMean_nil : npMean [] = none := by
  unfold npMean
  rw [if_pos rfl]

/-- C5 counterexample: on a stack containing a constant image (whose
segmented significant-pixel set is empty) `get_cv_table_global` does not
fail — the embedding of the loop is a total function, as the numpy code
raises nothing — and the returned table contains NaN (`none`) as the cv. -/
theorem C5_empty_segmentation_counterexample :
    (get_cv_table_global [imgK5]).1.cv = [none] := by
  have hcv : (get_cv_table_global [imgK5]).1.cv = ((cvRun [imgK5]).2).map cvOpt := rfl
  have hb : ballIntensity imgK5 = [] := by decide
  rw [hcv, cvRun_eq]
  simp [hb, cvOpt_nil]

/-- C5 amended: when some image's significant-pixel set is empty, no error
is raised; the table is still produced and its `sd`, `average` and `cv`
entries for that image are NaN (`none`), with pixel count 0. -/
theorem C5_empty_segmentation_amended (stack : List Image) (i : ℕ)
    (hi : i < stack.length)
    (hempty : ballIntensity (stack.getD i []) = []) :
    ((get_cv_table_global stack).1.cv)[i]? = some none ∧
    ((get_cv_table_global stack).1.nb_pixels)[i]? = some 0 ∧
    ((get_cv_table_global stack).1.sd)[i]? = some none ∧
    ((get_cv_table_global stack).1.average)[i]? = some none := by
  rw [List.getD_eq_getElem stack [] hi] at hempty
  have hcv : (get_cv_table_global stack).1.cv = ((cvRun stack).2).map cvOpt := rfl
  have hnb : (get_cv_table_global stack).1.nb_pixels =
    ((cvRun stack).2).map List.length := rfl
  have hsd : (get_cv_table_global stack).1.sd = ((cvRun stack).2).map npStd := rfl
  have hav : (get_cv_table_global stack).1.average =
    ((cvRun stack).2).map npMean := rfl
  rw [hcv, hnb, hsd, hav, cvRun_eq]
  simp only [List.getElem?_map, List.getElem?_eq_getElem hi, Option.map_some',
    hempty, cvOpt_nil, npStd_nil, npMean_nil, List.length_nil]
  exact ⟨trivial, trivial, trivial, trivial⟩

/-- Witness for the amended C5 at the concrete one-image stack `[imgK5]`. -/
theorem C5_empty_segmentation_amended_witness :
    ((get_cv_table_global [imgK5]).1.cv)[0]? = some none :=
  (C5_empty_segmentation_amended [imgK5] 0 (by decide) (by decide)).1

/-! ## Claim C1: the statistics are computed on the whole image, not the ROI -/

/-- C1: on `imgC11` (whose only bright block lies outside the central ROI)
the code's statistics population contains the four pixels of that block
(`nb_pixels = 4`), whereas the spec's ROI-first pipeline yields an empty
population: the Statistics Aggregator of the code operates on the segmented
WHOLE image, not downstream of the ROI Extractor. -/
theorem C1_stats_not_roi_cropped :
    (get_cv_table_global [imgC11]).1.nb_pixels = [4] ∧
      (roiFirstBallIntensity imgC11).length = 0 := by
  constructor
  · have hnb : (get_cv_table_global [imgC11]).1.nb_pixels =
        ((cvRun [imgC11]).2).map List.length := rfl
    rw [hnb, cvRun_eq]
    decide
  · decide

/-! ## Claim C10: partiality of the multi-image histogram tables -/

theorem broadcast255_isOk (l : List ℕ) :
    (broadcast255 l).isOk = ((l.length == 255) || (l.length == 1)) := by
  unfold broadcast255
  by_cases h255 : l.length = 255
  · rw [if_pos h255, h255]
    rfl
  · rw [if_neg h255]
    by_cases h1 : l.length = 1
    · rw [if_pos h1, h1]
      rfl
    · rw [if_neg h1]
      have b1 : (l.length == 255) = false := by simp [h255]
      have b2 : (l.length == 1) = false := by simp [h1]
      rw [b1, b2]
      rfl

theorem hist_counts_length (img : Image) :
    (get_hist_data img).2.length = (get_hist_data img).1.length :=
  List.length_map _ _

theorem histColumns_isOk (stack : List Image) :
    (histColumns stack).isOk =
      stack.all fun img =>
        ((get_hist_data img).1.length == 255) ||
          ((get_hist_data img).1.length == 1) := by
  induction stack with
  | nil => rfl
  | cons x rest ih =>
      rw [List.all_cons, ← ih]
      show (Except.bind (broadcast255 (get_hist_data x).1) fun a =>
        Except.bind (broadcast255 (get_hist_data x).2) fun b =>
          Except.bind (histColumns rest) fun tl =>
            Except.ok ((a, b) :: tl)).isOk = _
      rw [← broadcast255_isOk]
      cases ha : broadcast255 (get_hist_data x).1 with
      | error e => rfl
      | ok a =>
          have hb2 : (broadcast255 (get_hist_data x).2).isOk = true := by
            rw [broadcast255_isOk, hist_counts_length, ← broadcast255_isOk, ha]
            rfl
          cases hb : broadcast255 (get_hist_data x).2 with
          | error e =>
              rw [hb] at hb2
              cases hb2
          | ok b =>
              cases hc : histColumns rest with
              | error e => rfl
              | ok cols => rfl

/-- C10 counterexample: a two-image stack whose segmented images each have
exactly one distinct non-zero intensity (so vectors of length 1, not 255)
is accepted — numpy broadcasting also allows length-1 assignments — so the
error branch is not reached for every count different from 255. -/
theorem C10_hist_multi_counterexample :
    (get_hist_data_multi [imgE7a, imgE7b]).isOk = true ∧
      (get_hist_data imgE7a).1.length = 1 := by
  constructor
  · decide
  · decide

/-- C10 amended: the `nb_img > 1` path of `get_hist_data` succeeds exactly
when every image of the stack has 255 — or, via broadcasting, 1 — distinct
non-zero intensities in its segmented form; any other count reaches the
assignment's error branch. -/
theorem C10_hist_multi_amended (stack : List Image) :
    (get_hist_data_multi stack).isOk =
      stack.all fun img =>
        ((get_hist_data img).1.length == 255) ||
          ((get_hist_data img).1.length == 1) := by
  unfold get_hist_data_multi
  rw [← histColumns_isOk]
  cases histColumns stack with
  | error e => rfl
  | ok cols => rfl

/-! ## Claim C8: the single-image histogram table -/

/-- C8: for every image, the histogram table of `get_hist_data` lists
distinct intensity values in strictly ascending order; the counts are the
occurrence counts of those values among the non-zero pixels of the
segmented image; and the counts sum to the number of those non-zero
pixels. -/
theorem C8_histogram (img : Image) :
    List.Chain' (· < ·) (get_hist_data img).1 ∧
    (get_hist_data img).2 = (get_hist_data img).1.map
      (fun v => ((pixels (get_segmented_image img)).filter fun x => x ≠ 0).count v) ∧
    (get_hist_data img).2.sum =
      ((pixels (get_segmented_image img)).filter fun x => x ≠ 0).length := by
  have hperm : List.Perm
      (((pixels (get_segmented_image img)).filter fun x => x ≠ 0).insertionSort (· ≤ ·))
      ((pixels (get_segmented_image img)).filter fun x => x ≠ 0) :=
    List.perm_insertionSort _ _
  have hfst : (get_hist_data img).1 =
      (((pixels (get_segmented_image img)).filter fun x => x ≠ 0).insertionSort
        (· ≤ ·)).dedup := rfl
  have hsnd : (get_hist_data img).2 = (get_hist_data img).1.map
      (fun v => (((pixels (get_segmented_image img)).filter fun x => x ≠ 0).insertionSort
        (· ≤ ·)).count v) := rfl
  refine ⟨?_, ?_, ?_⟩
  · -- strictly ascending: sorted (≤) and nodup give pairwise (<)
    rw [hfst]
    have hsorted : List.Sorted (· ≤ ·)
        ((((pixels (get_segmented_image img)).filter fun x => x ≠ 0)).insertionSort
          (· ≤ ·)) := List.sorted_insertionSort _ _
    have hsorted' : List.Sorted (· ≤ ·)
        (((((pixels (get_segmented_image img)).filter fun x => x ≠ 0)).insertionSort
          (· ≤ ·)).dedup) :=
      List.Pairwise.sublist (List.dedup_sublist _) hsorted
    have hnodup := List.nodup_dedup
      ((((pixels (get_segmented_image img)).filter fun x => x ≠ 0)).insertionSort (· ≤ ·))
    rw [List.chain'_iff_pairwise]
    exact (hsorted'.and hnodup).imp fun h => lt_of_le_of_ne h.1 h.2
  · -- the counts are counts over the unsorted vector as well
    rw [hsnd]
    exact List.map_congr_left fun v _ => hperm.count_eq v
  · -- the counts sum to the number of non-zero pixels
    rw [hsnd, hfst, List.sum_map_count_dedup_eq_length]
    exact hperm.length_eq

/-! ## Claim C9: persistence does not change the computed overlay, but the
single-image Annotator fails to return it -/

/-- C9: for every image, running the single-image Annotator with an output
destination yields `None` in place of the overlay that the run without a
destination returns — the computation (including its possible
`clear_border` buffer error) is identical, only the returned value is
dropped.  This refutes the claim that every component returns the same
bundle with and without a destination: the computed overlay is not
returned when a destination is given (contradicting the function's own
docstring, which promises `image_label_overlay` unconditionally). -/
theorem C9_annotator_persistence (img : Image) (d : Unit) :
    get_marked_roi_and_label_single_img img (some d) =
      Except.map (fun _ => (none : Option Overlay))
        (get_marked_roi_and_label_single_img img none) := by
  unfold get_marked_roi_and_label_single_img
  cases annotCore img
  · rfl
  · rfl

/-! ## Claim C2: the normalized CV column -/

/-- The behaviour of Python's `min` fold over a list of real (non-NaN)
values: the result is real, is a lower bound, and occurs in the inputs. -/
theorem pyMinStep_some (a b : ℝ) :
    pyMinStep (some a) (some b) = if b < a then some b else some a := rfl

theorem pyMin_fold (xs : List (Option ℝ)) :
    ∀ a : ℝ, (∀ x ∈ xs, ∃ v : ℝ, x = some v) →
      ∃ m : ℝ,
        xs.foldl pyMinStep (some a) = some m ∧
        m ≤ a ∧ (m = a ∨ some m ∈ xs) ∧ ∀ v : ℝ, some v ∈ xs → m ≤ v := by
  induction xs with
  | nil =>
      intro a _
      exact ⟨a, rfl, le_rfl, Or.inl rfl, by simp⟩
  | cons y ys ih =>
      intro a hall
      obtain ⟨b, rfl⟩ := hall y (List.mem_cons_self y ys)
      rw [List.foldl_cons, pyMinStep_some]
      have hall' : ∀ x ∈ ys, ∃ v : ℝ, x = some v :=
        fun x hx => hall x (List.mem_cons_of_mem _ hx)
      by_cases hba : b < a
      · rw [if_pos hba]
        obtain ⟨m, hm, hle, hmem, hub⟩ := ih b hall'
        refine ⟨m, hm, le_of_lt (lt_of_le_of_lt hle hba), ?_, ?_⟩
        · rcases hmem with he | hin
          · exact Or.inr (by rw [he]; exact List.mem_cons_self _ _)
          · exact Or.inr (List.mem_cons_of_mem _ hin)
        · intro v hv
          rcases List.mem_cons.mp hv with he | hin
          · rw [Option.some.inj he]
            exact hle
          · exact hub v hin
      · rw [if_neg hba]
        obtain ⟨m, hm, hle, hmem, hub⟩ := ih a hall'
        refine ⟨m, hm, hle, ?_, ?_⟩
        · rcases hmem with he | hin
          · exact Or.inl he
          · exact Or.inr (List.mem_cons_of_mem _ hin)
        · intro v hv
          rcases List.mem_cons.mp hv with he | hin
          · rw [Option.some.inj he]
            exact le_trans hle (le_of_not_lt hba)
          · exact hub v hin

/-- Evaluation of `pyMin` on a nonempty list of real values: real result, lower bound,
attained. -/
theorem pyMin_spec (l : List (Option ℝ)) (hne : l ≠ [])
    (hall : ∀ x ∈ l, ∃ v : ℝ, x = some v) :
    ∃ m : ℝ, pyMin l = some m ∧ some m ∈ l ∧ ∀ v : ℝ, some v ∈ l → m ≤ v := by
  cases l with
  | nil => exact absurd rfl hne
  | cons x xs =>
      obtain ⟨a, rfl⟩ := hall x (List.mem_cons_self x xs)
      obtain ⟨m, hm, hle, hmem, hub⟩ := pyMin_fold xs a
        (fun z hz => hall z (List.mem_cons_of_mem _ hz))
      refine ⟨m, hm, ?_, ?_⟩
      · rcases hmem with he | hin
        · rw [he]; exact List.mem_cons_self _ _
        · exact List.mem_cons_of_mem _ hin
      · intro v hv
        rcases List.mem_cons.mp hv with he | hin
        · rw [Option.some.inj he]
          exact hle
        · exact hub v hin

/-- Counting through a map when the preimage of the counted value among the
list members is exactly one value. -/
theorem count_map_eq_count {α β : Type} [BEq α] [LawfulBEq α] [BEq β] [LawfulBEq β]
    (f : α → β) (l : List α) (b : β) (c : α)
    (h : ∀ a ∈ l, f a = b ↔ a = c) :
    (l.map f).count b = l.count c := by
  induction l with
  | nil => rfl
  | cons x xs ih =>
      rw [List.map_cons, List.count_cons, List.count_cons,
        ih fun a ha => h a (List.mem_cons_of_mem _ ha)]
      have hx := h x (List.mem_cons_self _ _)
      by_cases hxc : x = c
      · subst hxc
        have hfb : f x = b := hx.mpr rfl
        simp [hfb]
      · have hfx : f x ≠ b := fun hb => hxc (hx.mp hb)
        simp [hxc, hfx]

/-- C2: whenever the Statistics Aggregator succeeds — every image has a
nonempty significant-pixel set and the minimum CV is a positive real, so
the normalization is finite — every normalized CV is a real number `≥ 1`,
the value 1 is attained (so `min(normalizedCV) = 1`), and the number of
entries equal to 1 is exactly the number of images attaining the minimal
CV: exactly one image is normalized to 1 except under ties. -/
theorem C2_normalized_cv (stack : List Image) (hne : stack ≠ [])
    (hpos : ∀ img ∈ stack, ∃ c : ℝ, cvOpt (ballIntensity img) = some c ∧ 0 < c) :
    (∀ y ∈ (get_cv_table_global stack).1.cv_relative_to_min,
        ∃ v : ℝ, y = some v ∧ 1 ≤ v) ∧
    some (1 : ℝ) ∈ (get_cv_table_global stack).1.cv_relative_to_min ∧
    ((get_cv_table_global stack).1.cv_relative_to_min).count (some (1 : ℝ)) =
      ((get_cv_table_global stack).1.cv).count
        (pyMin ((get_cv_table_global stack).1.cv)) := by
  have hcveq : (get_cv_table_global stack).1.cv =
      (stack.map ballIntensity).map cvOpt := by
    have : (get_cv_table_global stack).1.cv = ((cvRun stack).2).map cvOpt := rfl
    rw [this, cvRun_eq]
  have hnorm : (get_cv_table_global stack).1.cv_relative_to_min =
      ((stack.map ballIntensity).map cvOpt).map
        (fun c => divOpt c (pyMin ((stack.map ballIntensity).map cvOpt))) := by
    have : (get_cv_table_global stack).1.cv_relative_to_min =
        (((cvRun stack).2).map cvOpt).map
          (fun c => divOpt c (pyMin (((cvRun stack).2).map cvOpt))) := rfl
    rw [this, cvRun_eq]
  set E : List (Option ℝ) := (stack.map ballIntensity).map cvOpt with hE
  have hallE : ∀ x ∈ E, ∃ v : ℝ, x = some v ∧ 0 < v := by
    intro x hx
    rw [hE] at hx
    obtain ⟨bl, hbl, rfl⟩ := List.mem_map.mp hx
    obtain ⟨img, himg, rfl⟩ := List.mem_map.mp hbl
    exact hpos img himg
  have hEne : E ≠ [] := by
    rw [hE]
    intro hnil
    apply hne
    have := congrArg List.length hnil
    simp only [List.length_map, List.length_nil] at this
    exact List.length_eq_zero.mp this
  obtain ⟨m, hmE, hmmem, hmlb⟩ := pyMin_spec E hEne
    (fun x hx => (hallE x hx).imp fun v hv => hv.1)
  have hmpos : 0 < m := by
    obtain ⟨v, hv, hvpos⟩ := hallE _ hmmem
    have : m = v := by injection hv
    rw [this]; exact hvpos
  have hmne : m ≠ 0 := ne_of_gt hmpos
  have hdiv : ∀ x ∈ E, divOpt x (pyMin E) = some 1 ↔ x = some m := by
    intro x hx
    obtain ⟨v, rfl, hvpos⟩ := hallE x hx
    rw [hmE]
    show (if m = 0 then none else some (v / m)) = some 1 ↔ _
    rw [if_neg hmne]
    constructor
    · intro h1
      have : v / m = 1 := by injection h1
      have : v = m := by
        field_simp at this
        exact this
      rw [this]
    · intro hvm
      have : v = m := by injection hvm
      rw [this, div_self hmne]
  refine ⟨?_, ?_, ?_⟩
  · intro y hy
    rw [hnorm] at hy
    obtain ⟨x, hxE, rfl⟩ := List.mem_map.mp hy
    obtain ⟨v, rfl, hvpos⟩ := hallE x hxE
    rw [hmE]
    refine ⟨v / m, ?_, ?_⟩
    · show (if m = 0 then none else some (v / m)) = _
      rw [if_neg hmne]
    · rw [le_div_iff₀ hmpos, one_mul]
      exact hmlb v hxE
  · rw [hnorm]
    apply List.mem_map.mpr
    refine ⟨some m, hmmem, ?_⟩
    rw [hmE]
    show (if m = 0 then none else some (m / m)) = some 1
    rw [if_neg hmne, div_self hmne]
  · rw [hnorm, hcveq, hmE]
    rw [hmE] at hdiv
    exact count_map_eq_count _ E (some 1) (some m) hdiv

theorem ballA7 : ballIntensity imgA7 = [20, 30, 20, 30] := by decide

theorem ballB7 : ballIntensity imgB7 = [30, 50, 30, 50] := by decide

theorem sqrt25 : Real.sqrt 25 = 5 := by
  rw [show (25 : ℝ) = 5 ^ 2 by norm_num]
  exact Real.sqrt_sq (by norm_num)

theorem sqrt100 : Real.sqrt 100 = 10 := by
  rw [show (100 : ℝ) = 10 ^ 2 by norm_num]
  exact Real.sqrt_sq (by norm_num)

/-- The CV of `imgA7`: pixels `{20, 30, 20, 30}`, mean 25, population
standard deviation 5, CV `5/25 = 1/5`. -/
theorem cvA7 : cvOpt (ballIntensity imgA7) = some (1 / 5) := by
  rw [ballA7]
  unfold cvOpt
  rw [if_neg (by decide)]
  simp only [List.map_cons, List.map_nil, List.sum_cons, List.sum_nil,
    List.length_cons, List.length_nil]
  push_cast
  norm_num [sqrt25]

/-- The CV of `imgB7`: pixels `{30, 50, 30, 50}`, mean 40, population
standard deviation 10, CV `10/40 = 1/4`. -/
theorem cvB7 : cvOpt (ballIntensity imgB7) = some (1 / 4) := by
  rw [ballB7]
  unfold cvOpt
  rw [if_neg (by decide)]
  simp only [List.map_cons, List.map_nil, List.sum_cons, List.sum_nil,
    List.length_cons, List.length_nil]
  push_cast
  norm_num [sqrt100]

/-- Witness for C2 at the concrete two-image stack `[imgA7, imgB7]` with
CVs `[1/5, 1/4]`: the normalized column contains the value 1. -/
theorem C2_normalized_cv_witness :
    some (1 : ℝ) ∈ (get_cv_table_global [imgA7, imgB7]).1.cv_relative_to_min :=
  (C2_normalized_cv [imgA7, imgB7] (by decide)
    (by
      intro img himg
      rcases List.mem_cons.mp himg with rfl | himg2
      · exact ⟨1 / 5, cvA7, by norm_num⟩
      · rcases List.mem_cons.mp himg2 with rfl | hnil
        · exact ⟨1 / 4, cvB7, by norm_num⟩
        · cases hnil)).2.1

end Metrologist
